import Mathlib

/-!
Verification of the file-backed Employee CRUD store
(`Code Part/crud_with_data_storage/main.py`).

The store keeps an in-memory ordered list `employees_db` of `Employee`
records, mirrored to a JSON document on disk.  We embed the state as a
`StoreState` holding the in-memory list and the (optional) persisted
document, and each endpoint handler as a pure function on that state.
HTTP errors (`HTTPException` with 404 / 400) are embedded as values of
`ApiError`.
-/

set_option autoImplicit false

namespace CrudStore

/--
Modelled from the spec: `models.py` (the pydantic `Employee` schema) is not
part of the sources; the spec gives `id : integer` (caller-supplied key)
and `name : string`, other attributes free-form and out of scope.
-/
structure Employee where
  id : Int
  name : String
deriving DecidableEq, Repr

/-- The serialized (dict) form of one record, as produced by `emp.dict()`. -/
abbrev EmployeeDict := Int × String

/-- `emp.dict()` — serialize one record for the JSON document. -/
def Employee.dict (e : Employee) : EmployeeDict := (e.id, e.name)

/-- `Employee(**emp)` — rebuild a record from its serialized dict. -/
def Employee.ofDict (d : EmployeeDict) : Employee := ⟨d.1, d.2⟩

/--
`save_employees(employees)`: serialize every record and write the whole
list to the backing document (`json.dump([emp.dict() for emp in employees])`).
We model the produced document as the list of dicts.
-/
def save_employees (employees : List Employee) : List EmployeeDict :=
  employees.map Employee.dict

/--
`load_employees()`: if the backing document does not exist
(`not os.path.exists(DB_PATH)`) return `[]`; otherwise parse it and rebuild
the records (`[Employee(**emp) for emp in data]`).  The document on disk is
modelled as `Option (List EmployeeDict)`, `none` meaning "no file".
-/
def load_employees (doc : Option (List EmployeeDict)) : List Employee :=
  match doc with
  | none => []
  | some data => data.map Employee.ofDict

/-- The HTTP-level errors raised by the handlers. -/
inductive ApiError where
  /-- `HTTPException(status_code=404, detail='Employee Not Found')` -/
  | notFound
  /-- `HTTPException(status_code=400, detail='Employee already exists')` -/
  | conflict
deriving DecidableEq, Repr

/--
The full state of the store: the in-memory `employees_db` list together
with the persisted document (`none` when no file exists on disk yet).
-/
structure StoreState where
  db : List Employee
  disk : Option (List EmployeeDict)
deriving DecidableEq, Repr

/-- `get_employees()` — `GET /employees`: return the whole collection. -/
def get_employees (s : StoreState) : List Employee :=
  s.db

/--
The scan in `get_employee`:
`for index, employee in enumerate(employees_db): if employee.id == emp_id:
return employees_db[index]` — return the first record whose id matches.
-/
def getLoop (emp_id : Int) : List Employee → Option Employee
  | [] => none
  | e :: rest => if e.id = emp_id then some e else getLoop emp_id rest

/--
`get_employee(emp_id)` — `GET /employees/{emp_id}`: first matching record,
or 404 if the loop falls through.  No state change.
-/
def get_employee (emp_id : Int) (s : StoreState) : Except ApiError Employee :=
  match getLoop emp_id s.db with
  | some e => .ok e
  | none => .error .notFound

/--
`add_employee(new_emp)` — `POST /add_employee`: raise 400 if any existing
record shares the new id; otherwise append, save the whole collection, and
return the inserted record.
-/
def add_employee (new_emp : Employee) (s : StoreState) :
    Except ApiError Employee × StoreState :=
  if s.db.any (fun employee => employee.id = new_emp.id) then
    (.error .conflict, s)
  else
    let db' := s.db ++ [new_emp]
    (.ok new_emp, ⟨db', some (save_employees db')⟩)

/--
The scan in `update_employee`: find the first index whose record id matches
and replace that entry (`employees_db[index] = updated_employee`); `none`
when no record matches.
-/
def updateLoop (emp_id : Int) (updated_employee : Employee) :
    List Employee → Option (List Employee)
  | [] => none
  | e :: rest =>
    if e.id = emp_id then some (updated_employee :: rest)
    else (updateLoop emp_id updated_employee rest).map (e :: ·)

/--
`update_employee(emp_id, updated_employee)` — `PUT /update_employee/{emp_id}`:
replace the first record matching `emp_id` in place, save, return the new
record; 404 with no mutation when no record matches.  Note the source never
compares `updated_employee.id` with `emp_id`.
-/
def update_employee (emp_id : Int) (updated_employee : Employee)
    (s : StoreState) : Except ApiError Employee × StoreState :=
  match updateLoop emp_id updated_employee s.db with
  | some db' => (.ok updated_employee, ⟨db', some (save_employees db')⟩)
  | none => (.error .notFound, s)

/--
The scan in `delete_employee`: remove the entry at the first matching index
(`del employees_db[index]`); `none` when no record matches.
-/
def deleteLoop (emp_id : Int) : List Employee → Option (List Employee)
  | [] => none
  | e :: rest =>
    if e.id = emp_id then some rest
    else (deleteLoop emp_id rest).map (e :: ·)

/--
`delete_employee(emp_id)` — `DELETE /delete_employee/{emp_id}`: remove the
first record matching `emp_id`, save, return the confirmation message; 404
with no mutation when no record matches.
-/
def delete_employee (emp_id : Int) (s : StoreState) :
    Except ApiError String × StoreState :=
  match deleteLoop emp_id s.db with
  | some db' => (.ok "Employee deleted successfully", ⟨db', some (save_employees db')⟩)
  | none => (.error .notFound, s)

/-- One mutating request against the store. -/
inductive Op where
  | create (e : Employee)
  | update (emp_id : Int) (e : Employee)
  | delete (emp_id : Int)
deriving DecidableEq, Repr

/-- The state after serving one mutating request. -/
def runOp (op : Op) (s : StoreState) : StoreState :=
  match op with
  | .create e => (add_employee e s).2
  | .update i e => (update_employee i e s).2
  | .delete i => (delete_employee i s).2

/-- The state after serving a sequence of mutating requests in order. -/
def runOps (ops : List Op) (s : StoreState) : StoreState :=
  ops.foldl (fun s op => runOp op s) s

/-- `employees_db = load_employees()` at process start with no file on disk. -/
def initialState : StoreState :=
  ⟨load_employees none, none⟩

/-- The uniqueness invariant: pairwise-distinct `id`s in the collection. -/
def idsNodup (db : List Employee) : Prop :=
  (db.map Employee.id).Nodup

instance (db : List Employee) : Decidable (idsNodup db) :=
  inferInstanceAs (Decidable (List.Nodup _))

instance {ε α : Type} [DecidableEq ε] [DecidableEq α] :
    DecidableEq (Except ε α) := fun a b =>
  match a, b with
  | .ok x, .ok y =>
    if h : x = y then .isTrue (by rw [h]) else
      .isFalse (fun hc => h (Except.ok.inj hc))
  | .error x, .error y =>
    if h : x = y then .isTrue (by rw [h]) else
      .isFalse (fun hc => h (Except.error.inj hc))
  | .ok _, .error _ => .isFalse (fun hc => Except.noConfusion hc)
  | .error _, .ok _ => .isFalse (fun hc => Except.noConfusion hc)

/-! ### Helper lemmas about the scans and the persistence layer -/

theorem ofDict_dict (e : Employee) : Employee.ofDict e.dict = e := rfl

/-- Re-loading a document just written by `save_employees` restores the list. -/
theorem load_save (l : List Employee) :
    load_employees (some (save_employees l)) = l := by
  simp only [load_employees, save_employees, List.map_map]
  exact List.map_id'' (fun e => rfl) l

theorem getLoop_eq_none {i : Int} {db : List Employee} :
    getLoop i db = none ↔ ∀ x ∈ db, x.id ≠ i := by
  induction db with
  | nil => simp [getLoop]
  | cons e rest ih =>
    by_cases h : e.id = i <;> simp [getLoop, h, ih]

theorem updateLoop_eq_none {i : Int} {u : Employee} {db : List Employee} :
    updateLoop i u db = none ↔ ∀ x ∈ db, x.id ≠ i := by
  induction db with
  | nil => simp [updateLoop]
  | cons e rest ih =>
    by_cases h : e.id = i <;> simp [updateLoop, h, ih]

theorem deleteLoop_eq_none {i : Int} {db : List Employee} :
    deleteLoop i db = none ↔ ∀ x ∈ db, x.id ≠ i := by
  induction db with
  | nil => simp [deleteLoop]
  | cons e rest ih =>
    by_cases h : e.id = i <;> simp [deleteLoop, h, ih]

/-- Compute `getLoop` on a list decomposed at its first match. -/
theorem getLoop_append {i : Int} {pre post : List Employee} {e : Employee}
    (hpre : ∀ x ∈ pre, x.id ≠ i) (he : e.id = i) :
    getLoop i (pre ++ e :: post) = some e := by
  induction pre with
  | nil => simp [getLoop, he]
  | cons p rest ih =>
    have hp : p.id ≠ i := hpre p (by simp)
    simp only [List.cons_append, getLoop, if_neg hp]
    exact ih (fun x hx => hpre x (by simp [hx]))

/-- Compute `updateLoop` on a list decomposed at its first match. -/
theorem updateLoop_append {i : Int} {u : Employee} {pre post : List Employee}
    {e : Employee} (hpre : ∀ x ∈ pre, x.id ≠ i) (he : e.id = i) :
    updateLoop i u (pre ++ e :: post) = some (pre ++ u :: post) := by
  induction pre with
  | nil => simp [updateLoop, he]
  | cons p rest ih =>
    have hp : p.id ≠ i := hpre p (by simp)
    simp only [List.cons_append, updateLoop, if_neg hp]
    rw [List.append_eq, ih (fun x hx => hpre x (by simp [hx]))]
    rfl

/-- Compute `deleteLoop` on a list decomposed at its first match. -/
theorem deleteLoop_append {i : Int} {pre post : List Employee} {e : Employee}
    (hpre : ∀ x ∈ pre, x.id ≠ i) (he : e.id = i) :
    deleteLoop i (pre ++ e :: post) = some (pre ++ post) := by
  induction pre with
  | nil => simp [deleteLoop, he]
  | cons p rest ih =>
    have hp : p.id ≠ i := hpre p (by simp)
    simp only [List.cons_append, deleteLoop, if_neg hp]
    rw [List.append_eq, ih (fun x hx => hpre x (by simp [hx]))]
    rfl

/-- A successful `updateLoop` splits the list at the first match. -/
theorem updateLoop_eq_some {i : Int} {u : Employee} {db db' : List Employee}
    (h : updateLoop i u db = some db') :
    ∃ pre e post, db = pre ++ e :: post ∧ (∀ x ∈ pre, x.id ≠ i) ∧ e.id = i ∧
      db' = pre ++ u :: post := by
  induction db generalizing db' with
  | nil => simp [updateLoop] at h
  | cons e rest ih =>
    by_cases hc : e.id = i
    · simp only [updateLoop, if_pos hc, Option.some.injEq] at h
      exact ⟨[], e, rest, rfl, by simp, hc, by simp [h.symm]⟩
    · simp only [updateLoop, if_neg hc, Option.map_eq_some'] at h
      obtain ⟨rest', hrest, hdb'⟩ := h
      obtain ⟨pre, f, post, h1, h2, h3, h4⟩ := ih hrest
      refine ⟨e :: pre, f, post, by simp [h1], ?_, h3, by simp [hdb'.symm, h4]⟩
      intro x hx
      rcases List.mem_cons.mp hx with hx | hx
      · simpa [hx] using hc
      · exact h2 x hx

/-- A successful `deleteLoop` splits the list at the first match. -/
theorem deleteLoop_eq_some {i : Int} {db db' : List Employee}
    (h : deleteLoop i db = some db') :
    ∃ pre e post, db = pre ++ e :: post ∧ (∀ x ∈ pre, x.id ≠ i) ∧ e.id = i ∧
      db' = pre ++ post := by
  induction db generalizing db' with
  | nil => simp [deleteLoop] at h
  | cons e rest ih =>
    by_cases hc : e.id = i
    · simp only [deleteLoop, if_pos hc, Option.some.injEq] at h
      exact ⟨[], e, rest, rfl, by simp, hc, by simp [h.symm]⟩
    · simp only [deleteLoop, if_neg hc, Option.map_eq_some'] at h
      obtain ⟨rest', hrest, hdb'⟩ := h
      obtain ⟨pre, f, post, h1, h2, h3, h4⟩ := ih hrest
      refine ⟨e :: pre, f, post, by simp [h1], ?_, h3, by simp [hdb'.symm, h4]⟩
      intro x hx
      rcases List.mem_cons.mp hx with hx | hx
      · simpa [hx] using hc
      · exact h2 x hx

/-- `add_employee` on a conflicting id: 400, state untouched. -/
theorem add_employee_conflict {s : StoreState} {new_emp : Employee}
    (h : ∃ x ∈ s.db, x.id = new_emp.id) :
    add_employee new_emp s = (.error .conflict, s) := by
  have hany : s.db.any (fun employee => employee.id = new_emp.id) = true := by
    simpa using h
  simp [add_employee, hany]

/-- `add_employee` on a fresh id: append, persist, return the record. -/
theorem add_employee_success {s : StoreState} {new_emp : Employee}
    (h : ∀ x ∈ s.db, x.id ≠ new_emp.id) :
    add_employee new_emp s =
      (.ok new_emp,
        ⟨s.db ++ [new_emp], some (save_employees (s.db ++ [new_emp]))⟩) := by
  have hany : s.db.any (fun employee => employee.id = new_emp.id) = false := by
    simpa using h
  simp [add_employee, hany]

/-! ### Claim theorems -/

/--
C3 — Create conflict atomicity: whenever some record in the collection
already has the new record's `id`, `add_employee` signals `Conflict`
(HTTP 400) and returns the state unchanged — the in-memory collection and
the persisted document are both exactly as before, so no write happens.
-/
theorem create_conflict_atomic (s : StoreState) (new_emp : Employee)
    (h : ∃ x ∈ s.db, x.id = new_emp.id) :
    (add_employee new_emp s).1 = .error .conflict ∧
    (add_employee new_emp s).2.db = s.db ∧
    (add_employee new_emp s).2.disk = s.disk := by
  rw [add_employee_conflict h]
  exact ⟨rfl, rfl, rfl⟩

/-- Witness for C3 at a concrete conflicting state. -/
theorem create_conflict_atomic_witness :
    (add_employee ⟨1, "Bob"⟩ ⟨[⟨1, "Alice"⟩], none⟩).1 = .error .conflict ∧
    (add_employee ⟨1, "Bob"⟩ ⟨[⟨1, "Alice"⟩], none⟩).2.db = [⟨1, "Alice"⟩] ∧
    (add_employee ⟨1, "Bob"⟩ ⟨[⟨1, "Alice"⟩], none⟩).2.disk = none :=
  create_conflict_atomic ⟨[⟨1, "Alice"⟩], none⟩ ⟨1, "Bob"⟩
    ⟨⟨1, "Alice"⟩, by simp⟩

/--
C5 — Absent-id atomicity: when no record in the collection has id `i`,
`get_employee` signals `NotFound`, and `update_employee` and
`delete_employee` signal `NotFound` (HTTP 404) and return the state
completely unchanged, performing no persistence write.
-/
theorem absent_id_atomic (s : StoreState) (i : Int) (u : Employee)
    (h : ∀ x ∈ s.db, x.id ≠ i) :
    get_employee i s = .error .notFound ∧
    update_employee i u s = (.error .notFound, s) ∧
    delete_employee i s = (.error .notFound, s) := by
  refine ⟨?_, ?_, ?_⟩
  · simp [get_employee, getLoop_eq_none.mpr h]
  · simp [update_employee, updateLoop_eq_none.mpr h]
  · simp [delete_employee, deleteLoop_eq_none.mpr h]

/-- Witness for C5 at a concrete state missing the id. -/
theorem absent_id_atomic_witness :
    get_employee 2 ⟨[⟨1, "Alice"⟩], none⟩ = .error .notFound ∧
    update_employee 2 ⟨2, "Bob"⟩ ⟨[⟨1, "Alice"⟩], none⟩ =
      (.error .notFound, ⟨[⟨1, "Alice"⟩], none⟩) ∧
    delete_employee 2 ⟨[⟨1, "Alice"⟩], none⟩ =
      (.error .notFound, ⟨[⟨1, "Alice"⟩], none⟩) :=
  absent_id_atomic ⟨[⟨1, "Alice"⟩], none⟩ 2 ⟨2, "Bob"⟩ (by decide)

/--
C8 — Startup on missing document: when the backing document does not
exist, `load_employees` returns the empty collection (no error value is
even possible); when the document exists, the collection is exactly its
contents, rebuilt record by record.
-/
theorem startup_load_behavior (data : List EmployeeDict) :
    load_employees none = [] ∧
    load_employees (some data) = data.map Employee.ofDict := by
  exact ⟨rfl, rfl⟩

/--
C2 — Persistence round-trip: after every successful mutation (Create,
Update or Delete), re-loading the store from the persisted document yields
exactly the in-memory collection at that point.
-/
theorem mutation_round_trip (s : StoreState) (e : Employee) (i : Int)
    (u : Employee) :
    (∀ r s', add_employee e s = (.ok r, s') →
      load_employees s'.disk = s'.db) ∧
    (∀ r s', update_employee i u s = (.ok r, s') →
      load_employees s'.disk = s'.db) ∧
    (∀ r s', delete_employee i s = (.ok r, s') →
      load_employees s'.disk = s'.db) := by
  refine ⟨?_, ?_, ?_⟩
  · intro r s' h
    by_cases hc : s.db.any (fun employee => employee.id = e.id)
    · simp [add_employee, hc] at h
    · simp only [add_employee, hc, Bool.false_eq_true, if_false, Prod.mk.injEq] at h
      rw [← h.2]
      exact load_save _
  · intro r s' h
    rcases hu : updateLoop i u s.db with _ | db'
    · simp [update_employee, hu] at h
    · simp only [update_employee, hu, Prod.mk.injEq] at h
      rw [← h.2]
      exact load_save _
  · intro r s' h
    rcases hd : deleteLoop i s.db with _ | db'
    · simp [delete_employee, hd] at h
    · simp only [delete_employee, hd, Prod.mk.injEq] at h
      rw [← h.2]
      exact load_save _

/-- Witness for C2: each of the three mutations at a concrete state. -/
theorem mutation_round_trip_witness :
    load_employees ((add_employee ⟨2, "Bob"⟩ ⟨[⟨1, "Alice"⟩], none⟩).2).disk =
      ((add_employee ⟨2, "Bob"⟩ ⟨[⟨1, "Alice"⟩], none⟩).2).db ∧
    load_employees
        ((update_employee 1 ⟨1, "Alicia"⟩ ⟨[⟨1, "Alice"⟩], none⟩).2).disk =
      ((update_employee 1 ⟨1, "Alicia"⟩ ⟨[⟨1, "Alice"⟩], none⟩).2).db ∧
    load_employees ((delete_employee 1 ⟨[⟨1, "Alice"⟩], none⟩).2).disk =
      ((delete_employee 1 ⟨[⟨1, "Alice"⟩], none⟩).2).db :=
  ⟨(mutation_round_trip ⟨[⟨1, "Alice"⟩], none⟩ ⟨2, "Bob"⟩ 1 ⟨1, "Alicia"⟩).1
      ⟨2, "Bob"⟩ _ rfl,
   (mutation_round_trip ⟨[⟨1, "Alice"⟩], none⟩ ⟨2, "Bob"⟩ 1 ⟨1, "Alicia"⟩).2.1
      ⟨1, "Alicia"⟩ _ rfl,
   (mutation_round_trip ⟨[⟨1, "Alice"⟩], none⟩ ⟨2, "Bob"⟩ 1 ⟨1, "Alicia"⟩).2.2
      "Employee deleted successfully" _ rfl⟩

theorem runOps_cons (op : Op) (ops : List Op) (s : StoreState) :
    runOps (op :: ops) s = runOps ops (runOp op s) := rfl

/-- A block of Creates with fresh, pairwise-distinct ids appends in order. -/
theorem runOps_creates (es : List Employee) (s : StoreState)
    (hnodup : (es.map Employee.id).Nodup)
    (hdisj : ∀ e ∈ es, ∀ x ∈ s.db, x.id ≠ e.id) :
    (runOps (es.map Op.create) s).db = s.db ++ es := by
  induction es generalizing s with
  | nil => simp [runOps]
  | cons e rest ih =>
    have hfresh : ∀ x ∈ s.db, x.id ≠ e.id := fun x hx => hdisj e (by simp) x hx
    have hstep : runOp (Op.create e) s =
        ⟨s.db ++ [e], some (save_employees (s.db ++ [e]))⟩ := by
      simp [runOp, add_employee_success hfresh]
    have hdisj' : ∀ e' ∈ rest, ∀ x ∈ s.db ++ [e], x.id ≠ e'.id := by
      intro e' he' x hx
      rcases List.mem_append.mp hx with hx | hx
      · exact hdisj e' (by simp [he']) x hx
      · have hx' : x = e := by simpa using hx
        subst hx'
        intro hcontra
        have hmem : x.id ∈ rest.map Employee.id :=
          List.mem_map.mpr ⟨e', he', hcontra.symm⟩
        exact (List.nodup_cons.mp (by simpa using hnodup)).1 hmem
    have hrest := ih ⟨s.db ++ [e], some (save_employees (s.db ++ [e]))⟩
      (by simpa using hnodup.of_cons) hdisj'
    rw [List.map_cons, runOps_cons, hstep, hrest]
    simp

/--
C4 — Create success postcondition: on a fresh id, `add_employee` appends
the record at the end of the collection, persists the full collection, and
returns the inserted record; consequently a sequence of Creates with
pairwise-distinct ids starting from the empty initial store leaves
`get_employees` returning exactly those records in insertion order.
-/
theorem create_success_postcondition (s : StoreState) (new_emp : Employee)
    (h : ∀ x ∈ s.db, x.id ≠ new_emp.id)
    (es : List Employee) (hds : (es.map Employee.id).Nodup) :
    add_employee new_emp s =
      (.ok new_emp,
        ⟨s.db ++ [new_emp], some (save_employees (s.db ++ [new_emp]))⟩) ∧
    get_employees (runOps (es.map Op.create) initialState) = es := by
  refine ⟨add_employee_success h, ?_⟩
  have := runOps_creates es initialState hds (by
    intro e he x hx
    simp [initialState, load_employees] at hx)
  simpa [get_employees, initialState, load_employees] using this

/-- Witness for C4 at a concrete fresh create and a concrete sequence. -/
theorem create_success_postcondition_witness :
    add_employee ⟨2, "Bob"⟩ ⟨[⟨1, "Alice"⟩], none⟩ =
      (.ok ⟨2, "Bob"⟩,
        ⟨[⟨1, "Alice"⟩, ⟨2, "Bob"⟩],
          some (save_employees [⟨1, "Alice"⟩, ⟨2, "Bob"⟩])⟩) ∧
    get_employees
        (runOps ([⟨1, "Alice"⟩, ⟨2, "Bob"⟩].map Op.create) initialState) =
      [⟨1, "Alice"⟩, ⟨2, "Bob"⟩] :=
  create_success_postcondition ⟨[⟨1, "Alice"⟩], none⟩ ⟨2, "Bob"⟩ (by decide)
    [⟨1, "Alice"⟩, ⟨2, "Bob"⟩] (by decide)

/--
C7 — Update frame condition: when some record holds the path id `i`, the
collection splits as `pre ++ e :: post` at the first such record, and
`update_employee i u` replaces exactly that record with `u` (never
comparing `u.id` with `i`), persists, and returns `u`; every other record
keeps its value and its position, so no record is reordered.
-/
theorem update_frame_condition (s : StoreState) (i : Int) (u : Employee)
    (h : ∃ x ∈ s.db, x.id = i) :
    ∃ pre e post,
      s.db = pre ++ e :: post ∧ (∀ x ∈ pre, x.id ≠ i) ∧ e.id = i ∧
      update_employee i u s =
        (.ok u, ⟨pre ++ u :: post, some (save_employees (pre ++ u :: post))⟩) := by
  rcases hu : updateLoop i u s.db with _ | db'
  · obtain ⟨x, hx, hxi⟩ := h
    exact absurd hxi (updateLoop_eq_none.mp hu x hx)
  · obtain ⟨pre, e, post, h1, h2, h3, h4⟩ := updateLoop_eq_some hu
    exact ⟨pre, e, post, h1, h2, h3, by simp [update_employee, hu, h4]⟩

/-- Witness for C7 at a concrete two-record state. -/
theorem update_frame_condition_witness :
    ∃ pre e post,
      (StoreState.mk [⟨1, "Alice"⟩, ⟨2, "Bob"⟩] none).db =
        pre ++ e :: post ∧
      (∀ x ∈ pre, x.id ≠ (2 : Int)) ∧ e.id = 2 ∧
      update_employee 2 ⟨7, "Grace"⟩ ⟨[⟨1, "Alice"⟩, ⟨2, "Bob"⟩], none⟩ =
        (.ok ⟨7, "Grace"⟩,
          ⟨pre ++ ⟨7, "Grace"⟩ :: post,
            some (save_employees (pre ++ ⟨7, "Grace"⟩ :: post))⟩) :=
  update_frame_condition ⟨[⟨1, "Alice"⟩, ⟨2, "Bob"⟩], none⟩ 2 ⟨7, "Grace"⟩
    ⟨⟨2, "Bob"⟩, by simp, rfl⟩

/--
C10 — First-match semantics under duplicates: when the collection splits as
`pre ++ e :: post` with `pre` free of id `i`, `e.id = i`, and a later
record in `post` also carrying id `i`, `get_employee i` returns the
earliest match `e`, and `delete_employee i` removes only that earliest
match, leaving `pre ++ post` — so every later record with id `i` is still
in the collection.
-/
theorem first_match_under_duplicates (s : StoreState) (i : Int)
    (pre post : List Employee) (e : Employee)
    (hdb : s.db = pre ++ e :: post) (hpre : ∀ x ∈ pre, x.id ≠ i)
    (he : e.id = i) (hdup : ∃ x ∈ post, x.id = i) :
    get_employee i s = .ok e ∧
    delete_employee i s =
      (.ok "Employee deleted successfully",
        ⟨pre ++ post, some (save_employees (pre ++ post))⟩) ∧
    ∃ x ∈ (delete_employee i s).2.db, x.id = i := by
  have hget : getLoop i s.db = some e := by
    rw [hdb]; exact getLoop_append hpre he
  have hdel : deleteLoop i s.db = some (pre ++ post) := by
    rw [hdb]; exact deleteLoop_append hpre he
  refine ⟨by simp [get_employee, hget], by simp [delete_employee, hdel], ?_⟩
  obtain ⟨x, hx, hxi⟩ := hdup
  exact ⟨x, by simp [delete_employee, hdel, hx], hxi⟩

/-- Witness for C10 at a concrete state with a duplicated id. -/
theorem first_match_under_duplicates_witness :
    get_employee 1 ⟨[⟨1, "Alice"⟩, ⟨1, "Bob"⟩], none⟩ = .ok ⟨1, "Alice"⟩ ∧
    delete_employee 1 ⟨[⟨1, "Alice"⟩, ⟨1, "Bob"⟩], none⟩ =
      (.ok "Employee deleted successfully",
        ⟨[] ++ [⟨1, "Bob"⟩], some (save_employees ([] ++ [⟨1, "Bob"⟩]))⟩) ∧
    ∃ x ∈ (delete_employee 1 ⟨[⟨1, "Alice"⟩, ⟨1, "Bob"⟩], none⟩).2.db,
      x.id = 1 :=
  first_match_under_duplicates ⟨[⟨1, "Alice"⟩, ⟨1, "Bob"⟩], none⟩ 1
    [] [⟨1, "Bob"⟩] ⟨1, "Alice"⟩ rfl (by simp) rfl ⟨⟨1, "Bob"⟩, by simp, rfl⟩

/--
C1 counterexample — the uniqueness invariant is not preserved by every
operation: from the state `[{1, Alice}, {2, Bob}]` with pairwise-distinct
ids, `Update(1, {2, Carol})` produces a collection whose ids are `[2, 2]`.
-/
theorem uniqueness_not_preserved_by_update :
    idsNodup (StoreState.mk [⟨1, "Alice"⟩, ⟨2, "Bob"⟩] none).db ∧
    ¬ idsNodup (runOp (Op.update 1 ⟨2, "Carol"⟩)
        ⟨[⟨1, "Alice"⟩, ⟨2, "Bob"⟩], none⟩).db := by
  decide

/--
C1 amended — from any state with pairwise-distinct ids, Create and Delete
always preserve the uniqueness invariant, and Update preserves it exactly
under the side condition that the new record's id equals the path id or
occurs nowhere in the collection (without it, Update can introduce a
duplicate id).
-/
theorem uniqueness_invariant_amended (s : StoreState) (h : idsNodup s.db) :
    (∀ e, idsNodup (runOp (.create e) s).db) ∧
    (∀ i, idsNodup (runOp (.delete i) s).db) ∧
    (∀ i u, (u.id = i ∨ ∀ x ∈ s.db, x.id ≠ u.id) →
      idsNodup (runOp (.update i u) s).db) := by
  refine ⟨?_, ?_, ?_⟩
  · intro e
    by_cases hc : s.db.any (fun employee => employee.id = e.id)
    · simpa [runOp, add_employee, hc] using h
    · have hfresh : ∀ x ∈ s.db, x.id ≠ e.id := by simpa using hc
      have hdb : (runOp (.create e) s).db = s.db ++ [e] := by
        simp [runOp, add_employee, hc]
      rw [hdb]
      unfold idsNodup at h ⊢
      rw [List.map_append]
      refine List.nodup_append.mpr ⟨h, List.nodup_singleton _, ?_⟩
      intro a ha hb
      obtain ⟨x, hx, hxa⟩ := List.mem_map.mp ha
      have hae : a = e.id := by simpa using hb
      exact hfresh x hx (hxa.trans hae)
  · intro i
    rcases hd : deleteLoop i s.db with _ | db'
    · simpa [runOp, delete_employee, hd] using h
    · obtain ⟨pre, e, post, h1, h2, h3, h4⟩ := deleteLoop_eq_some hd
      have hdb : (runOp (.delete i) s).db = pre ++ post := by
        simp [runOp, delete_employee, hd, h4]
      rw [hdb]
      unfold idsNodup at h ⊢
      have hsub : List.Sublist ((pre ++ post).map Employee.id)
          (s.db.map Employee.id) := by
        rw [h1]
        exact ((List.sublist_cons_self e post).append_left pre).map Employee.id
      exact List.Nodup.sublist hsub h
  · intro i u hu
    rcases hup : updateLoop i u s.db with _ | db'
    · simpa [runOp, update_employee, hup] using h
    · obtain ⟨pre, e, post, h1, h2, h3, h4⟩ := updateLoop_eq_some hup
      have hdb : (runOp (.update i u) s).db = pre ++ u :: post := by
        simp [runOp, update_employee, hup, h4]
      rw [hdb]
      have h' : ((pre ++ e :: post).map Employee.id).Nodup := by
        unfold idsNodup at h
        rwa [h1] at h
      unfold idsNodup
      rcases hu with hu | hu
      · have hids : (pre ++ u :: post).map Employee.id =
            (pre ++ e :: post).map Employee.id := by
          simp [hu, h3]
        rwa [hids]
      · rw [List.map_append, List.map_cons] at h' ⊢
        rw [List.nodup_middle] at h' ⊢
        have htail := (List.nodup_cons.mp h').2
        refine List.nodup_cons.mpr ⟨?_, htail⟩
        intro hm
        rw [← List.map_append] at hm
        obtain ⟨x, hx, hxu⟩ := List.mem_map.mp hm
        have hxdb : x ∈ s.db := by
          rw [h1]
          rcases List.mem_append.mp hx with hx | hx
          · exact List.mem_append.mpr (Or.inl hx)
          · exact List.mem_append.mpr (Or.inr (List.mem_cons_of_mem e hx))
        exact hu x hxdb hxu

/-- Witness for amended C1 at a concrete distinct-id state. -/
theorem uniqueness_invariant_amended_witness :
    idsNodup (runOp (.create ⟨2, "Bob"⟩) ⟨[⟨1, "Alice"⟩], none⟩).db ∧
    idsNodup (runOp (.delete 1) ⟨[⟨1, "Alice"⟩], none⟩).db ∧
    idsNodup (runOp (.update 1 ⟨1, "Alicia"⟩) ⟨[⟨1, "Alice"⟩], none⟩).db :=
  ⟨(uniqueness_invariant_amended ⟨[⟨1, "Alice"⟩], none⟩ (by decide)).1
      ⟨2, "Bob"⟩,
   (uniqueness_invariant_amended ⟨[⟨1, "Alice"⟩], none⟩ (by decide)).2.1 1,
   (uniqueness_invariant_amended ⟨[⟨1, "Alice"⟩], none⟩ (by decide)).2.2 1
      ⟨1, "Alicia"⟩ (Or.inl rfl)⟩

/--
C6 counterexample — Delete-then-Get does not always signal `NotFound`: in
the duplicate-id state `[{1, Alice}, {1, Bob}]`, `Delete(1)` succeeds but
removes only the first match, so the following `Get(1)` returns
`{1, Bob}`.
-/
theorem delete_then_get_counterexample :
    (delete_employee 1 ⟨[⟨1, "Alice"⟩, ⟨1, "Bob"⟩], none⟩).1 =
      .ok "Employee deleted successfully" ∧
    get_employee 1 (delete_employee 1 ⟨[⟨1, "Alice"⟩, ⟨1, "Bob"⟩], none⟩).2 =
      .ok ⟨1, "Bob"⟩ ∧
    get_employee 1 (delete_employee 1 ⟨[⟨1, "Alice"⟩, ⟨1, "Bob"⟩], none⟩).2 ≠
      .error .notFound := by
  decide

/--
C6 amended — on every state satisfying the uniqueness invariant
(pairwise-distinct ids), a successful `Delete(i)` followed immediately by
`Get(i)` signals `NotFound`.
-/
theorem delete_then_get_amended (s : StoreState) (i : Int) (r : String)
    (s' : StoreState) (h : idsNodup s.db)
    (hdel : delete_employee i s = (.ok r, s')) :
    get_employee i s' = .error .notFound := by
  rcases hd : deleteLoop i s.db with _ | db'
  · simp [delete_employee, hd] at hdel
  · obtain ⟨pre, e, post, h1, h2, h3, h4⟩ := deleteLoop_eq_some hd
    have hs' : s' = ⟨db', some (save_employees db')⟩ := by
      simp only [delete_employee, hd] at hdel
      exact (congrArg Prod.snd hdel).symm
    have h' : ((pre ++ e :: post).map Employee.id).Nodup := by
      unfold idsNodup at h
      rwa [h1] at h
    rw [List.map_append, List.map_cons, List.nodup_middle] at h'
    have hnotin := (List.nodup_cons.mp h').1
    have hnone : getLoop i s'.db = none := by
      rw [hs', h4]
      refine getLoop_eq_none.mpr ?_
      intro x hx hxi
      rcases List.mem_append.mp hx with hx | hx
      · exact h2 x hx hxi
      · refine hnotin ?_
        rw [← List.map_append]
        refine List.mem_map.mpr ⟨x, List.mem_append.mpr (Or.inr hx), ?_⟩
        rw [hxi, h3]
    simp [get_employee, hnone]

/-- Witness for amended C6 at a concrete one-record state. -/
theorem delete_then_get_amended_witness :
    get_employee 1 ⟨[], some (save_employees [])⟩ = .error .notFound :=
  delete_then_get_amended ⟨[⟨1, "Alice"⟩], none⟩ 1
    "Employee deleted successfully" ⟨[], some (save_employees [])⟩
    (by decide) rfl

/--
C9 counterexample — Update can retire a key, but the new record need not be
found by `Get(r.id)` afterwards: in `[{5, Eve}, {1, Alice}]` (exactly one
record with id 1), `Update(1, r)` for `r = {5, Yves}` succeeds and
`Get(1)` signals `NotFound`, yet `Get(5)` returns the earlier record
`{5, Eve}`, which is not equal to `r`.
-/
theorem update_retire_counterexample :
    ([Employee.mk 5 "Eve", Employee.mk 1 "Alice"].countP
        (fun x => decide (x.id = 1))) = 1 ∧
    (Employee.mk 5 "Yves").id ≠ 1 ∧
    (update_employee 1 ⟨5, "Yves"⟩ ⟨[⟨5, "Eve"⟩, ⟨1, "Alice"⟩], none⟩).1 =
      .ok ⟨5, "Yves"⟩ ∧
    get_employee 1
        (update_employee 1 ⟨5, "Yves"⟩ ⟨[⟨5, "Eve"⟩, ⟨1, "Alice"⟩], none⟩).2 =
      .error .notFound ∧
    get_employee 5
        (update_employee 1 ⟨5, "Yves"⟩ ⟨[⟨5, "Eve"⟩, ⟨1, "Alice"⟩], none⟩).2 ≠
      .ok ⟨5, "Yves"⟩ ∧
    get_employee 5
        (update_employee 1 ⟨5, "Yves"⟩ ⟨[⟨5, "Eve"⟩, ⟨1, "Alice"⟩], none⟩).2 =
      .ok ⟨5, "Eve"⟩ := by
  decide

/--
C9 amended — Update retires a key: when exactly one record holds key `i`
and the replacement record `r` has `r.id ≠ i` and an id occurring nowhere
in the collection, `Update(i, r)` succeeds returning `r`, and afterwards
`Get(i)` signals `NotFound` while `Get(r.id)` finds `r` (now the earliest
and only record with that id).
-/
theorem update_retires_key_amended (s : StoreState) (i : Int) (r : Employee)
    (hone : s.db.countP (fun x => decide (x.id = i)) = 1)
    (hne : r.id ≠ i) (hfresh : ∀ x ∈ s.db, x.id ≠ r.id) :
    (update_employee i r s).1 = .ok r ∧
    get_employee i (update_employee i r s).2 = .error .notFound ∧
    get_employee r.id (update_employee i r s).2 = .ok r := by
  have hex : ∃ x ∈ s.db, x.id = i := by
    have hpos : 0 < s.db.countP (fun x => decide (x.id = i)) := by omega
    obtain ⟨x, hx, hpx⟩ := List.countP_pos_iff.mp hpos
    exact ⟨x, hx, by simpa using hpx⟩
  rcases hup : updateLoop i r s.db with _ | db'
  · obtain ⟨x, hx, hxi⟩ := hex
    exact absurd hxi (updateLoop_eq_none.mp hup x hx)
  obtain ⟨pre, e, post, h1, h2, h3, h4⟩ := updateLoop_eq_some hup
  have hpcount : pre.countP (fun x => decide (x.id = i)) +
      (e :: post).countP (fun x => decide (x.id = i)) = 1 := by
    rw [← List.countP_append, ← h1]
    exact hone
  have hecount : (e :: post).countP (fun x => decide (x.id = i)) =
      post.countP (fun x => decide (x.id = i)) + 1 :=
    List.countP_cons_of_pos _ _ (by simpa using h3)
  have hpost0 : post.countP (fun x => decide (x.id = i)) = 0 := by omega
  have hpost : ∀ x ∈ post, x.id ≠ i := by
    intro x hx
    simpa using List.countP_eq_zero.mp hpost0 x hx
  have hdb : (update_employee i r s).2.db = pre ++ r :: post := by
    simp [update_employee, hup, h4]
  refine ⟨by simp [update_employee, hup], ?_, ?_⟩
  · have hnone : getLoop i (update_employee i r s).2.db = none := by
      rw [hdb]
      refine getLoop_eq_none.mpr ?_
      intro x hx
      rcases List.mem_append.mp hx with hx | hx
      · exact h2 x hx
      · rcases List.mem_cons.mp hx with hx | hx
        · rw [hx]; exact hne
        · exact hpost x hx
    simp [get_employee, hnone]
  · have hsome : getLoop r.id (update_employee i r s).2.db = some r := by
      rw [hdb]
      refine getLoop_append ?_ rfl
      intro x hx
      exact hfresh x (by rw [h1]; exact List.mem_append.mpr (Or.inl hx))
    simp [get_employee, hsome]

/-- Witness for amended C9 at a concrete one-record state. -/
theorem update_retires_key_amended_witness :
    (update_employee 1 ⟨2, "Bob"⟩ ⟨[⟨1, "Alice"⟩], none⟩).1 =
      .ok ⟨2, "Bob"⟩ ∧
    get_employee 1
        (update_employee 1 ⟨2, "Bob"⟩ ⟨[⟨1, "Alice"⟩], none⟩).2 =
      .error .notFound ∧
    get_employee (Employee.mk 2 "Bob").id
        (update_employee 1 ⟨2, "Bob"⟩ ⟨[⟨1, "Alice"⟩], none⟩).2 =
      .ok ⟨2, "Bob"⟩ :=
  update_retires_key_amended ⟨[⟨1, "Alice"⟩], none⟩ 1 ⟨2, "Bob"⟩
    (by decide) (by decide) (by decide)

end CrudStore
